import Mathlib

/-!
Verification development for the AESD assignments repository: the `aesdchar`
character driver (`aesd-char-driver/main.c`) and the `aesdsocket` TCP server
(`server/aesdsocket.c`).

Bytes are modelled as `Nat` (the newline byte is 10).  Kernel allocation and
user-copy outcomes are modelled by explicit oracles (`Bool` flags or
`Nat → Bool` maps, one entry per allocation / copy event), since those are the
only fallible steps the driver code branches on.  The mutex is held for the
whole of each operation in the source, so each operation is modelled as an
atomic state transformer.
-/

/-- A slot update for the ring's entry array: `entry[i] = v`. -/
def setSlot (f : Nat → List Nat) (i : Nat) (v : List Nat) : Nat → List Nat :=
  fun j => if j = i then v else f j

/-- Modelled from the spec: `struct aesd_circular_buffer`
(`aesd-circular-buffer.h` is not among the provided sources).  A fixed array
of `CAPACITY = 10` entry slots plus `in_offs`, `out_offs` and `full`.
A slot holds the bytes of one committed command. -/
structure aesd_circular_buffer where
  entry : Nat → List Nat
  in_offs : Nat
  out_offs : Nat
  full : Bool

/-- Modelled from the spec: `aesd_circular_buffer_add_entry`
(`aesd-circular-buffer.c` is not among the provided sources).
"inserts `entry` at `in_offs`.  If `full`, advances `out_offs`.  Advances
`in_offs` modulo CAPACITY.  Sets `full` when `in_offs == out_offs` after
advance.  Never fails."  (The evicted slot is copied and freed by the caller
`finalize_command`, so it is not returned here.) -/
def aesd_circular_buffer_add_entry (b : aesd_circular_buffer) (e : List Nat) :
    aesd_circular_buffer :=
  let ent := setSlot b.entry b.in_offs e
  let out' := if b.full then (b.out_offs + 1) % 10 else b.out_offs
  let in' := (b.in_offs + 1) % 10
  { entry := ent, in_offs := in', out_offs := out', full := in' == out' }

/-- Number of present entries: "`CAPACITY` when full; else
`(in_offs − out_offs) mod CAPACITY`" (mathematical mod). -/
def entry_count (b : aesd_circular_buffer) : Nat :=
  if b.full then 10 else (b.in_offs + 10 - b.out_offs) % 10

/-- The present entries read from `out_offs` forward in insertion (FIFO)
order. -/
def presentList (b : aesd_circular_buffer) : List (List Nat) :=
  (List.range (entry_count b)).map (fun n => b.entry ((b.out_offs + n) % 10))

/-- The committed log as a byte sequence: the present entries concatenated in
FIFO order. -/
def logContents (b : aesd_circular_buffer) : List Nat :=
  (presentList b).flatten

/-- Walk a FIFO entry list subtracting each entry's size from the byte offset
until it fits. -/
def findAux : List (List Nat) → Nat → Option (List Nat × Nat)
  | [], _ => none
  | e :: es, off => if off < e.length then some (e, off) else findAux es (off - e.length)

/-- Modelled from the spec: `aesd_circular_buffer_find_entry_offset_for_fpos`
(`aesd-circular-buffer.c` is not among the provided sources).  "walks entries
from `out_offs` forward in insertion order, subtracting each entry's size from
`byte_offset` until it fits.  Returns the entry reference and the remaining
offset within it.  Returns none when `byte_offset ≥ sum of sizes`." -/
def aesd_circular_buffer_find_entry_offset_for_fpos
    (b : aesd_circular_buffer) (off : Nat) : Option (List Nat × Nat) :=
  findAux (presentList b) off

/-- `struct aesd_dev` (main.c): ring, pending partial command, running total
of committed bytes.  `partial_buf`/`partial_buf.length` model
`dev->partial`/`dev->partial_len` (a NULL pointer and a zero-length buffer
behave identically in the source). -/
structure aesd_dev where
  circ : aesd_circular_buffer
  partial_buf : List Nat
  total_size : Nat

/-- Device state after `aesd_init_module`: zeroed ring, no partial data. -/
def init_dev : aesd_dev :=
  { circ := { entry := fun _ => [], in_offs := 0, out_offs := 0, full := false },
    partial_buf := [], total_size := 0 }

/-- `partial_append` (main.c): append `src` to `dev->partial` through a fresh
`kmalloc` whose outcome is `allocOk`; `none` models `-ENOMEM` (the device is
left unchanged).  A zero-length `src` returns success without allocating. -/
def partial_append (dev : aesd_dev) (src : List Nat) (allocOk : Bool) :
    Option aesd_dev :=
  if src.length = 0 then some dev
  else if allocOk then some { dev with partial_buf := dev.partial_buf ++ src }
  else none

/-- `finalize_command` (main.c): transfer ownership of the pending partial
buffer into the ring as one completed command; a no-op when the partial buffer
is empty.  When the ring is full the slot at `in_offs` is about to be
overwritten: its size is subtracted from `total_size` after the new entry's
size is added (the C code frees its bytes).  Always succeeds. -/
def finalize_command (dev : aesd_dev) : aesd_dev :=
  if dev.partial_buf.length = 0 then dev
  else
    let out := dev.partial_buf
    let old : List Nat := if dev.circ.full then dev.circ.entry dev.circ.in_offs else []
    { circ := aesd_circular_buffer_add_entry dev.circ out,
      partial_buf := [],
      total_size := dev.total_size + out.length - old.length }

/-- The framing loop of `aesd_write` (main.c): scan `rest` byte by byte;
`seg` is the bytes of the current command accumulated since the last newline
(the C code tracks these via `start`/`i` into `kbuf`).  On each newline the
segment including the newline is appended to the partial buffer and the
command is finalized; a trailing segment is appended and stays pending.
`alloc n` is the outcome of the n-th `kmalloc` of the call; the `Bool` result
is `false` when an allocation failed (`-ENOMEM`), in which case the returned
device keeps all progress made before the failing step. -/
def write_loop (alloc : Nat → Bool) : Nat → aesd_dev → List Nat → List Nat →
    aesd_dev × Bool
  | n, dev, seg, [] =>
    if seg.length = 0 then (dev, true)
    else
      match partial_append dev seg (alloc n) with
      | some d => (d, true)
      | none => (dev, false)
  | n, dev, seg, c :: rest =>
    if c = 10 then
      match partial_append dev (seg ++ [c]) (alloc n) with
      | none => (dev, false)
      | some d => write_loop alloc (n + 1) (finalize_command d) [] rest
    else write_loop alloc n dev (seg ++ [c]) rest

/-- Error results of `aesd_write`. -/
inductive WriteErr where
  | ENOMEM
  | EFAULT
deriving DecidableEq

/-- `aesd_write` (main.c).  `alloc 0` is the `kmalloc` of the bounce buffer
`kbuf`; `copyOk` is the outcome of `copy_from_user`; `alloc 1, alloc 2, …` are
the `kmalloc`s of the successive `partial_append` steps.  Returns the new
device state and either the number of bytes consumed (all of them, on
success) or the error.  A zero-length write returns 0 at once.  `*f_pos` is
ignored and not updated (the log is append-only). -/
def aesd_write (alloc : Nat → Bool) (copyOk : Bool) (dev : aesd_dev)
    (buf : List Nat) : aesd_dev × Except WriteErr Nat :=
  if buf.length = 0 then (dev, .ok 0)
  else if alloc 0 = false then (dev, .error .ENOMEM)
  else if copyOk = false then (dev, .error .EFAULT)
  else
    match write_loop alloc 1 dev [] buf with
    | (d, true) => (d, .ok buf.length)
    | (d, false) => (d, .error .ENOMEM)

/-- The copy loop of `read_from_ring` (main.c).  Each iteration looks up the
entry containing `fpos`, copies `avail = min (entry bytes after the offset)
(count − copied)` bytes to the user (`copyOk chunk` is the outcome of the
chunk-th `copy_to_user`), and advances.  The loop runs while fewer than
`count` bytes are copied and `fpos < total_size`; each iteration delivers at
least one byte, so `count` bounds the number of iterations and is passed as
structural fuel (fuel exhaustion returns exactly what the loop condition
would).  The `Bool` is `false` when a `copy_to_user` failed. -/
def read_loop (copyOk : Nat → Bool) (dev : aesd_dev) (count : Nat) :
    Nat → Nat → List Nat → Nat → List Nat × Nat × Bool
  | 0, _, copied, fpos => (copied, fpos, true)
  | fuel + 1, chunk, copied, fpos =>
    if copied.length < count ∧ fpos < dev.total_size then
      match aesd_circular_buffer_find_entry_offset_for_fpos dev.circ fpos with
      | none => (copied, fpos, true)
      | some (e, off) =>
        let avail := min (e.length - off) (count - copied.length)
        if copyOk chunk then
          read_loop copyOk dev count fuel (chunk + 1)
            (copied ++ (e.drop off).take avail) (fpos + avail)
        else (copied, fpos, false)
    else (copied, fpos, true)

/-- `read_from_ring` (main.c): copy out up to `count` bytes starting at
`fpos`.  Returns the delivered bytes (`Except.error` models `-EFAULT`, raised
only when a `copy_to_user` fails with nothing delivered yet; a later failure
returns the bytes already delivered) and the new file position. -/
def read_from_ring (copyOk : Nat → Bool) (dev : aesd_dev) (count fpos : Nat) :
    Except Unit (List Nat) × Nat :=
  if dev.total_size ≤ fpos then (.ok [], fpos)
  else
    match read_loop copyOk dev count count 0 [] fpos with
    | (copied, f', true) => (.ok copied, f')
    | (copied, f', false) =>
      if copied.length = 0 then (.error (), f') else (.ok copied, f')

/-- `aesd_read` (main.c): zero-length reads return at once; otherwise
`read_from_ring` under the device lock. -/
def aesd_read (copyOk : Nat → Bool) (dev : aesd_dev) (count fpos : Nat) :
    Except Unit (List Nat) × Nat :=
  if count = 0 then (.ok [], fpos)
  else read_from_ring copyOk dev count fpos

/-- `struct file_operations` as the driver fills it in (main.c, `aesd_fops`).
Fields the initializer leaves unset are NULL in C and `none` here. -/
structure file_operations where
  fop_read : Option ((Nat → Bool) → aesd_dev → Nat → Nat → Except Unit (List Nat) × Nat)
  fop_write : Option ((Nat → Bool) → Bool → aesd_dev → List Nat → aesd_dev × Except WriteErr Nat)
  fop_open : Option Unit
  fop_release : Option Unit
  llseek : Option Unit
  unlocked_ioctl : Option Unit

/-- `aesd_fops` (main.c): only `.read`, `.write`, `.open` and `.release` are
set; the initializer sets neither `.llseek` nor `.unlocked_ioctl`. -/
def aesd_fops : file_operations :=
  { fop_read := some aesd_read,
    fop_write := some aesd_write,
    fop_open := some (),
    fop_release := some (),
    llseek := none,
    unlocked_ioctl := none }

/-- Greedy decimal-digit parse (the `%u` conversions of `sscanf`): the parsed
value and the bytes after the digits, or `none` when no digit leads. -/
def parseNatAux : List Nat → Nat → Option (Nat × List Nat)
  | [], acc => some (acc, [])
  | c :: rest, acc =>
    if 48 ≤ c ∧ c ≤ 57 then parseNatAux rest (acc * 10 + (c - 48))
    else some (acc, c :: rest)

def parseNat (l : List Nat) : Option (Nat × List Nat) :=
  match l with
  | c :: rest => if 48 ≤ c ∧ c ≤ 57 then parseNatAux rest (c - 48) else none
  | [] => none

/-- The byte string "AESDCHAR_IOCSEEKTO:". -/
def seekPrefix : List Nat :=
  [65, 69, 83, 68, 67, 72, 65, 82, 95, 73, 79, 67, 83, 69, 69, 75, 84, 79, 58]

/-- `sscanf(z, "AESDCHAR_IOCSEEKTO:%u,%u", &X, &Y) == 2` (aesdsocket.c):
the literal prefix, a decimal number, a comma, a decimal number; trailing
bytes (the newline) are ignored.  Simplification: `%u` is modelled as plain
digits over unbounded `Nat` — the leading-whitespace/sign acceptance of
`sscanf` and the wrap at `UINT_MAX` are not modelled.  Every input at which
a theorem below evaluates this parser is an ordinary line rejected by the
literal-prefix match, where the model and `sscanf` agree exactly. -/
def parse_seek_cmd (line : List Nat) : Option (Nat × Nat) :=
  if line.take seekPrefix.length = seekPrefix then
    match parseNat (line.drop seekPrefix.length) with
    | some (x, rest) =>
      match rest with
      | 44 :: rest' =>
        match parseNat rest' with
        | some (y, _) => some (x, y)
        | none => none
      | _ => none
    | none => none
  else none

/-- The device-mode read-back loop (aesdsocket.c, `handle_client_thread`):
read `SEND_CHUNK = 4096` bytes from the device at the connection's current
file position, send them to the client, and stop when a read returns 0 or the
block contains a newline.  Reads use an all-success copy oracle (a failing
`copy_to_user` aborts the connection instead).  Every iteration that recurses
has delivered at least one byte and advanced the position, so
`total_size + 1` bounds the number of iterations; the caller passes that as
`fuel`.  Returns the bytes sent and the new file position. -/
def device_reply_loop (dev : aesd_dev) : Nat → Nat → List Nat × Nat
  | 0, fpos => ([], fpos)
  | fuel + 1, fpos =>
    match aesd_read (fun _ => true) dev 4096 fpos with
    | (.ok [], _) => ([], fpos)
    | (.ok bytes, f') =>
      if bytes.contains 10 then (bytes, f')
      else
        let (rest, f'') := device_reply_loop dev fuel f'
        (bytes ++ rest, f'')
    | (.error _, _) => ([], fpos)

/-- The per-line body of the **nested** device-mode receive loop
(aesdsocket.c lines 333–378), run each time a newline completes `line_buf`
inside that loop.  Note this body does not run for a connection's first
packet: the first newline only opens the device and enters the nested loop
without resetting `line_buf` (see `device_connection_run`), so the first
line this body sees is the first packet merged with the bytes up to the next
newline.  If the line parses as `AESDCHAR_IOCSEEKTO:X,Y` the server issues
the ioctl — which fails with `ENOTTY`, since `aesd_fops` registers no
`unlocked_ioctl` handler, leaving device state and file position unchanged —
and does not write the line; otherwise the line is written to the device
(allocations and copies succeeding).  Then the reply loop streams from the
connection's current device file position.  Returns the new device state,
the new file position and the bytes sent to the client. -/
def handle_line_device (dev : aesd_dev) (fpos : Nat) (line : List Nat) :
    aesd_dev × Nat × List Nat :=
  let dev1 :=
    match parse_seek_cmd line with
    | some _ => dev
    | none => (aesd_write (fun _ => true) true dev line).fst
  let sent := device_reply_loop dev1 (dev1.total_size + 1) fpos
  (dev1, sent.snd, sent.fst)

/-- The nested device-mode receive loop (aesdsocket.c lines 311–381):
accumulate inbound bytes into `line_buf`; each newline runs the per-line
body `handle_line_device` on the completed line and resets the line buffer
(line-buffer allocations assumed to succeed; a send/read failure would abort
the connection instead).  On connection end the buffered remainder is
discarded.  Returns the final device state, device file position and the
replies sent, in order. -/
def device_inner_loop : aesd_dev → Nat → List Nat → List Nat →
    aesd_dev × Nat × List (List Nat)
  | dev, fpos, _, [] => (dev, fpos, [])
  | dev, fpos, lineBuf, c :: rest =>
    if c = 10 then
      let h := handle_line_device dev fpos (lineBuf ++ [c])
      let k := device_inner_loop h.fst h.snd.fst [] rest
      (k.fst, k.snd.fst, h.snd.snd :: k.snd.snd)
    else device_inner_loop dev fpos (lineBuf ++ [c]) rest

/-- Device-mode connection processing from connection start
(aesdsocket.c lines 273–384): the outer receive loop only accumulates bytes
into `line_buf`; on the first newline it opens the device (file position 0)
and enters the nested receive loop — **without** running the per-line body
and **without** resetting `line_buf` — so the connection's first packet gets
no reply of its own and is handled merged with the line completed by the
following newline.  Models the chunking in which the bytes up to and
including the first newline arrive before the nested loop's first `recv`
(the source abandons any bytes of that same chunk past the newline once the
nested loop takes over).  Returns the final device state, device file
position and the replies sent, in order. -/
def device_connection_run : List Nat → List Nat → aesd_dev →
    aesd_dev × Nat × List (List Nat)
  | _, [], dev => (dev, 0, [])
  | lineBuf, c :: rest, dev =>
    if c = 10 then device_inner_loop dev 0 (lineBuf ++ [c]) rest
    else device_connection_run (lineBuf ++ [c]) rest dev

/-- `append_to_file_locked` (aesdsocket.c): append the packet to the data
file under `g_file_mutex` (short writes and `EINTR` are retried until all
bytes are written). -/
def append_to_file_locked (file : List Nat) (data : List Nat) : List Nat :=
  file ++ data

/-- The chunking loop of `send_file_contents_locked` (aesdsocket.c): read the
file from offset 0 in `SEND_CHUNK = 4096` blocks and send each until EOF.
Each iteration consumes a nonempty block, so `file length + 1` bounds the
iterations; the wrapper passes that as fuel. -/
def send_chunks : Nat → List Nat → List Nat
  | 0, _ => []
  | fuel + 1, rem =>
    let chunk := rem.take 4096
    if chunk.length = 0 then [] else chunk ++ send_chunks fuel (rem.drop 4096)

/-- `send_file_contents_locked` (aesdsocket.c): stream the whole file to the
client, from offset 0 to EOF. -/
def send_file_contents_locked (file : List Nat) : List Nat :=
  send_chunks (file.length + 1) file

/-- File-mode handling of one complete packet (aesdsocket.c,
`handle_client_thread`, `#else` branch): under `g_file_mutex`, append the
packet to the data file, then stream the whole file back.  Returns the new
file contents and the reply. -/
def handle_packet_file (file : List Nat) (pkt : List Nat) : List Nat × List Nat :=
  let f' := append_to_file_locked file pkt
  (f', send_file_contents_locked f')

/-- Per-connection line-assembly state (aesdsocket.c): `line_buf` with
`line_len = buf.length` and `line_cap = cap`. -/
structure LineSt where
  buf : List Nat
  cap : Nat

/-- One step of the line assembler (aesdsocket.c, `handle_client_thread`):
byte `c` arrives; if the buffer must grow (`line_len + 1 > line_cap`) a
`realloc` happens whose outcome is `allocOk` — on failure the buffered bytes
are discarded, `line_buf`/`line_cap` are reset and the byte is dropped
(`continue`).  Otherwise the byte is appended; if it is a newline the buffer
contents are emitted as one packet and `line_len` resets (capacity kept). -/
def assemble_byte (st : LineSt) (c : Nat) (allocOk : Bool) :
    LineSt × Option (List Nat) :=
  if st.buf.length + 1 > st.cap then
    if allocOk then
      let cap' := if st.cap = 0 then 1024 else st.cap * 2
      if c = 10 then ({ buf := [], cap := cap' }, some (st.buf ++ [c]))
      else ({ buf := st.buf ++ [c], cap := cap' }, none)
    else ({ buf := [], cap := 0 }, none)
  else
    if c = 10 then ({ buf := [], cap := st.cap }, some (st.buf ++ [c]))
    else ({ buf := st.buf ++ [c], cap := st.cap }, none)

/-- Run the line assembler over a byte stream; each byte carries the outcome
of the `realloc` it would trigger.  Returns the final state and the packets
emitted, in order. -/
def assemble_run (st : LineSt) : List (Nat × Bool) → LineSt × List (List Nat)
  | [] => (st, [])
  | (c, a) :: rest =>
    let step := assemble_byte st c a
    let further := assemble_run step.fst rest
    (further.fst, step.snd.toList ++ further.snd)

/-- A sequence of `aesd_write` calls, each with its own allocation oracle,
copy outcome and buffer. -/
def run_writes : aesd_dev → List ((Nat → Bool) × Bool × List Nat) → aesd_dev
  | dev, [] => dev
  | dev, (al, cp, buf) :: ws => run_writes (aesd_write al cp dev buf).fst ws

/-- A sequence of `aesd_write` calls whose allocations and copies all
succeed. -/
def run_writes_ok : aesd_dev → List (List Nat) → aesd_dev
  | dev, [] => dev
  | dev, b :: bs => run_writes_ok (aesd_write (fun _ => true) true dev b).fst bs

/-! ### Lemmas about the byte-offset lookup -/

theorem findAux_some_lt {es : List (List Nat)} {off : Nat} {e : List Nat} {o : Nat}
    (h : findAux es off = some (e, o)) : o < e.length := by
  induction es generalizing off with
  | nil => simp [findAux] at h
  | cons a as ih =>
    simp only [findAux] at h
    split at h
    · simp only [Option.some.injEq, Prod.mk.injEq] at h
      obtain ⟨rfl, rfl⟩ := h
      assumption
    · exact ih h

theorem findAux_decomp {es : List (List Nat)} {off : Nat} {e : List Nat} {o : Nat}
    (h : findAux es off = some (e, o)) :
    ∃ pre post, es = pre ++ e :: post ∧ off = (pre.map List.length).sum + o := by
  induction es generalizing off with
  | nil => simp [findAux] at h
  | cons a as ih =>
    simp only [findAux] at h
    split at h
    · simp only [Option.some.injEq, Prod.mk.injEq] at h
      obtain ⟨rfl, rfl⟩ := h
      exact ⟨[], as, rfl, by simp⟩
    · next hge =>
      obtain ⟨pre, post, rfl, hoff⟩ := ih h
      refine ⟨a :: pre, post, rfl, ?_⟩
      simp only [List.map_cons, List.sum_cons]
      omega

theorem findAux_none_le {es : List (List Nat)} {off : Nat}
    (h : findAux es off = none) : es.flatten.length ≤ off := by
  induction es generalizing off with
  | nil => simp
  | cons a as ih =>
    simp only [findAux] at h
    split at h
    · exact absurd h (by simp)
    · next hge =>
      have := ih h
      simp only [List.flatten_cons, List.length_append]
      omega

theorem findAux_drop {es : List (List Nat)} {off : Nat} {e : List Nat} {o : Nat}
    (h : findAux es off = some (e, o)) :
    (∃ tail, es.flatten.drop off = e.drop o ++ tail) ∧
      off + (e.length - o) ≤ es.flatten.length := by
  have hlt := findAux_some_lt h
  obtain ⟨pre, post, rfl, rfl⟩ := findAux_decomp h
  have hflat : (pre ++ e :: post).flatten = pre.flatten ++ (e ++ post.flatten) := by
    simp [List.flatten_append]
  constructor
  · refine ⟨post.flatten, ?_⟩
    rw [hflat]
    have h1 : (pre.flatten ++ (e ++ post.flatten)).drop ((pre.map List.length).sum + o)
        = (e ++ post.flatten).drop o := by
      have h0 : (pre.flatten ++ (e ++ post.flatten)).drop (pre.flatten.length + o)
          = (e ++ post.flatten).drop o := List.drop_append o
      rwa [List.length_flatten] at h0
    rw [h1, List.drop_append_of_le_length (by omega)]
  · rw [hflat, List.length_append, List.length_flatten, List.length_append]
    omega

/-- The bytes a read iteration copies out of the found entry are exactly the
next `avail` bytes of the committed log. -/
theorem findAux_take {es : List (List Nat)} {off : Nat} {e : List Nat} {o avail : Nat}
    (h : findAux es off = some (e, o)) (hav : avail ≤ e.length - o) :
    (es.flatten.drop off).take avail = (e.drop o).take avail := by
  obtain ⟨⟨tail, hdrop⟩, _⟩ := findAux_drop h
  rw [hdrop]
  exact List.take_append_of_le_length (by simp; omega)

/-! ### Ring well-formedness and the FIFO view of `add_entry` -/

/-- Structural well-formedness of the ring: both offsets are in range and a
full ring has `in_offs = out_offs` (spec §3 invariants). -/
def CircWF (b : aesd_circular_buffer) : Prop :=
  b.in_offs < 10 ∧ b.out_offs < 10 ∧ (b.full = true → b.in_offs = b.out_offs)

theorem add_entry_entry (b : aesd_circular_buffer) (e : List Nat) :
    (aesd_circular_buffer_add_entry b e).entry = setSlot b.entry b.in_offs e := rfl

theorem add_entry_in (b : aesd_circular_buffer) (e : List Nat) :
    (aesd_circular_buffer_add_entry b e).in_offs = (b.in_offs + 1) % 10 := rfl

theorem add_entry_out_not_full {b : aesd_circular_buffer} (e : List Nat)
    (h : b.full = false) :
    (aesd_circular_buffer_add_entry b e).out_offs = b.out_offs := by
  simp [aesd_circular_buffer_add_entry, h]

theorem add_entry_out_full {b : aesd_circular_buffer} (e : List Nat)
    (h : b.full = true) :
    (aesd_circular_buffer_add_entry b e).out_offs = (b.out_offs + 1) % 10 := by
  simp [aesd_circular_buffer_add_entry, h]

theorem CircWF_add {b : aesd_circular_buffer} {e : List Nat} (hwf : CircWF b) :
    CircWF (aesd_circular_buffer_add_entry b e) := by
  obtain ⟨hin, hout, hfull⟩ := hwf
  refine ⟨?_, ?_, ?_⟩
  · rw [add_entry_in]; omega
  · rcases hb : b.full with _ | _
    · rw [add_entry_out_not_full e hb]; omega
    · rw [add_entry_out_full e hb]; omega
  · intro hb
    have : ((b.in_offs + 1) % 10 ==
        if b.full = true then (b.out_offs + 1) % 10 else b.out_offs) = true := hb
    rw [beq_iff_eq] at this
    show (b.in_offs + 1) % 10 = _
    simpa [aesd_circular_buffer_add_entry] using this

theorem entry_count_lt_of_not_full {b : aesd_circular_buffer}
    (h : b.full = false) : entry_count b < 10 := by
  simp [entry_count, h]
  omega

theorem entry_count_le (b : aesd_circular_buffer) : entry_count b ≤ 10 := by
  rcases hb : b.full with _ | _
  · exact Nat.le_of_lt (entry_count_lt_of_not_full hb)
  · simp [entry_count, hb]

theorem presentList_length (b : aesd_circular_buffer) :
    (presentList b).length = entry_count b := by
  simp [presentList]

theorem out_add_count {b : aesd_circular_buffer} (hin : b.in_offs < 10)
    (hout : b.out_offs < 10) (h : b.full = false) :
    (b.out_offs + entry_count b) % 10 = b.in_offs := by
  simp [entry_count, h]
  omega

theorem entry_count_add_not_full {b : aesd_circular_buffer} {e : List Nat}
    (hin : b.in_offs < 10) (hout : b.out_offs < 10) (h : b.full = false) :
    entry_count (aesd_circular_buffer_add_entry b e) = entry_count b + 1 := by
  simp [entry_count, aesd_circular_buffer_add_entry, h]
  split <;> omega

theorem entry_count_add_full {b : aesd_circular_buffer} {e : List Nat}
    (hio : b.in_offs = b.out_offs) (h : b.full = true) :
    entry_count (aesd_circular_buffer_add_entry b e) = 10 := by
  simp [entry_count, aesd_circular_buffer_add_entry, h]
  intro hne
  omega

theorem presentList_add_not_full {b : aesd_circular_buffer} {e : List Nat}
    (hwf : CircWF b) (h : b.full = false) :
    presentList (aesd_circular_buffer_add_entry b e) = presentList b ++ [e] := by
  obtain ⟨hin, hout, _⟩ := hwf
  have hk : entry_count b < 10 := entry_count_lt_of_not_full h
  have hidx : (b.out_offs + entry_count b) % 10 = b.in_offs := out_add_count hin hout h
  have hrg : List.range (entry_count b + 1) =
      List.range (entry_count b) ++ [entry_count b] := List.range_succ (entry_count b)
  rw [presentList, entry_count_add_not_full hin hout h, add_entry_entry,
    add_entry_out_not_full e h, hrg, List.map_append, List.map_singleton]
  congr 1
  · rw [presentList]
    refine List.map_congr_left ?_
    intro n hn
    rw [List.mem_range] at hn
    have hne : (b.out_offs + n) % 10 ≠ b.in_offs := by omega
    simp [setSlot, hne]
  · simp [setSlot, hidx]

theorem presentList_add_full {b : aesd_circular_buffer} {e : List Nat}
    (hwf : CircWF b) (h : b.full = true) :
    presentList (aesd_circular_buffer_add_entry b e) =
      (presentList b).drop 1 ++ [e] := by
  obtain ⟨hin, hout, hio⟩ := hwf
  have hio := hio h
  have hr10 : List.range 10 = List.range 9 ++ [9] := by decide
  have hr10' : List.range 10 = 0 :: (List.range 9).map Nat.succ :=
    List.range_succ_eq_map 9
  have hdrop : (presentList b).drop 1 =
      (List.range 9).map (fun n => b.entry ((b.out_offs + (n + 1)) % 10)) := by
    rw [presentList]
    simp only [entry_count, h, if_true]
    rw [hr10', List.map_cons, List.drop_succ_cons, List.drop_zero, List.map_map]
    exact List.map_congr_left (fun n _ => by simp [Function.comp, Nat.succ_eq_add_one])
  rw [presentList, entry_count_add_full hio h, add_entry_entry,
    add_entry_out_full e h, hr10, List.map_append, List.map_singleton, hdrop]
  congr 1
  · refine List.map_congr_left ?_
    intro n hn
    rw [List.mem_range] at hn
    have harg : ((b.out_offs + 1) % 10 + n) % 10 = (b.out_offs + (n + 1)) % 10 := by
      omega
    rw [harg]
    have hne : (b.out_offs + (n + 1)) % 10 ≠ b.in_offs := by omega
    simp [setSlot, hne]
  · have harg : ((b.out_offs + 1) % 10 + 9) % 10 = b.in_offs := by omega
    simp [setSlot, harg]

/-! ### The device invariant: `total_size` tracks the committed entries -/

/-- Sum of the sizes of a list of entries. -/
def sumSizes (l : List (List Nat)) : Nat := (l.map List.length).sum

/-- The device invariant (spec §3): the ring is well-formed and `total_size`
is the sum of the present entries' sizes. -/
def DevInv (dev : aesd_dev) : Prop :=
  CircWF dev.circ ∧ dev.total_size = sumSizes (presentList dev.circ)

theorem length_logContents (b : aesd_circular_buffer) :
    (logContents b).length = sumSizes (presentList b) := by
  rw [logContents, sumSizes, List.length_flatten]

theorem sumSizes_append (l : List (List Nat)) (x : List Nat) :
    sumSizes (l ++ [x]) = sumSizes l + x.length := by
  simp [sumSizes]

/-- A full well-formed ring's FIFO view starts with the slot at `in_offs`
(the entry `finalize_command` is about to evict). -/
theorem presentList_full_cons {b : aesd_circular_buffer} (hwf : CircWF b)
    (h : b.full = true) :
    presentList b = b.entry b.in_offs :: (presentList b).drop 1 := by
  obtain ⟨hin, hout, hio⟩ := hwf
  have hio := hio h
  have hr10' : List.range 10 = 0 :: (List.range 9).map Nat.succ :=
    List.range_succ_eq_map 9
  rw [presentList]
  simp only [entry_count, h, if_true]
  rw [hr10', List.map_cons, List.drop_succ_cons, List.drop_zero]
  have harg : (b.out_offs + 0) % 10 = b.in_offs := by omega
  rw [harg]

theorem partial_append_some {dev : aesd_dev} {src : List Nat} {a : Bool}
    {d : aesd_dev} (h : partial_append dev src a = some d) :
    d.circ = dev.circ ∧ d.total_size = dev.total_size ∧
      d.partial_buf = dev.partial_buf ++ src := by
  unfold partial_append at h
  split at h
  · next hz =>
    rw [Option.some.injEq] at h
    rw [← h, List.length_eq_zero.mp hz]
    simp
  · split at h
    · rw [Option.some.injEq] at h
      rw [← h]
      simp
    · cases h

theorem finalize_not_full {dev : aesd_dev} (hfull : dev.circ.full = false)
    (hne : ¬ dev.partial_buf.length = 0) :
    finalize_command dev =
      { circ := aesd_circular_buffer_add_entry dev.circ dev.partial_buf,
        partial_buf := [],
        total_size := dev.total_size + dev.partial_buf.length } := by
  rw [finalize_command, if_neg hne]
  simp [hfull]

theorem finalize_full {dev : aesd_dev} (hfull : dev.circ.full = true)
    (hne : ¬ dev.partial_buf.length = 0) :
    finalize_command dev =
      { circ := aesd_circular_buffer_add_entry dev.circ dev.partial_buf,
        partial_buf := [],
        total_size := dev.total_size + dev.partial_buf.length -
          (dev.circ.entry dev.circ.in_offs).length } := by
  rw [finalize_command, if_neg hne]
  simp [hfull]

theorem DevInv_finalize {dev : aesd_dev} (h : DevInv dev) :
    DevInv (finalize_command dev) := by
  obtain ⟨hwf, htot⟩ := h
  by_cases hz : dev.partial_buf.length = 0
  · rw [finalize_command, if_pos hz]
    exact ⟨hwf, htot⟩
  · rcases hfull : dev.circ.full with _ | _
    · rw [finalize_not_full hfull hz]
      refine ⟨CircWF_add hwf, ?_⟩
      show dev.total_size + dev.partial_buf.length =
        sumSizes (presentList (aesd_circular_buffer_add_entry dev.circ dev.partial_buf))
      rw [presentList_add_not_full hwf hfull, sumSizes_append, htot]
    · rw [finalize_full hfull hz]
      refine ⟨CircWF_add hwf, ?_⟩
      show dev.total_size + dev.partial_buf.length -
          (dev.circ.entry dev.circ.in_offs).length =
        sumSizes (presentList (aesd_circular_buffer_add_entry dev.circ dev.partial_buf))
      rw [presentList_add_full hwf hfull, sumSizes_append]
      have hsum : sumSizes (presentList dev.circ) =
          (dev.circ.entry dev.circ.in_offs).length +
            sumSizes ((presentList dev.circ).drop 1) := by
        conv_lhs => rw [presentList_full_cons hwf hfull]
        simp [sumSizes]
      omega

theorem DevInv_write_loop (alloc : Nat → Bool) :
    ∀ (rest seg : List Nat) (n : Nat) (dev : aesd_dev), DevInv dev →
      DevInv (write_loop alloc n dev seg rest).fst := by
  intro rest
  induction rest with
  | nil =>
    intro seg n dev h
    rw [write_loop]
    split
    · exact h
    · rcases hpa : partial_append dev seg (alloc n) with _ | d
      · exact h
      · obtain ⟨hc, ht, _⟩ := partial_append_some hpa
        exact ⟨hc ▸ h.1, by rw [ht, hc]; exact h.2⟩
  | cons c rest ih =>
    intro seg n dev h
    rw [write_loop]
    split
    · rcases hpa : partial_append dev (seg ++ [c]) (alloc n) with _ | d
      · exact h
      · obtain ⟨hc, ht, _⟩ := partial_append_some hpa
        exact ih [] (n + 1) (finalize_command d)
          (DevInv_finalize ⟨hc ▸ h.1, by rw [ht, hc]; exact h.2⟩)
    · exact ih (seg ++ [c]) n dev h

theorem DevInv_aesd_write (alloc : Nat → Bool) (copyOk : Bool) (dev : aesd_dev)
    (buf : List Nat) (h : DevInv dev) :
    DevInv (aesd_write alloc copyOk dev buf).fst := by
  rw [aesd_write]
  split
  · exact h
  · split
    · exact h
    · split
      · exact h
      · rcases hw : write_loop alloc 1 dev [] buf with ⟨d, b⟩
        have hl := DevInv_write_loop alloc buf [] 1 dev h
        rw [hw] at hl
        cases b <;> simpa using hl

theorem DevInv_init : DevInv init_dev :=
  ⟨⟨by decide, by decide, by decide⟩, by decide⟩

theorem DevInv_run_writes (ws : List ((Nat → Bool) × Bool × List Nat))
    (dev : aesd_dev) (h : DevInv dev) : DevInv (run_writes dev ws) := by
  induction ws generalizing dev with
  | nil => exact h
  | cons w ws ih =>
    rcases w with ⟨al, cp, buf⟩
    exact ih _ (DevInv_aesd_write al cp dev buf h)

/-! ### Framing: a fully successful write appends its bytes to the stream -/

theorem write_loop_ok_framing :
    ∀ (rest seg : List Nat) (n : Nat) (dev : aesd_dev),
      CircWF dev.circ →
      entry_count dev.circ + rest.count 10 ≤ 10 →
      (write_loop (fun _ => true) n dev seg rest).snd = true ∧
      CircWF (write_loop (fun _ => true) n dev seg rest).fst.circ ∧
      entry_count (write_loop (fun _ => true) n dev seg rest).fst.circ
          = entry_count dev.circ + rest.count 10 ∧
      logContents (write_loop (fun _ => true) n dev seg rest).fst.circ ++
          (write_loop (fun _ => true) n dev seg rest).fst.partial_buf
        = logContents dev.circ ++ dev.partial_buf ++ seg ++ rest := by
  intro rest
  induction rest with
  | nil =>
    intro seg n dev hwf _
    rw [write_loop]
    by_cases hz : seg.length = 0
    · rw [if_pos hz]
      have : seg = [] := List.length_eq_zero.mp hz
      subst this
      simp [hwf]
    · rw [if_neg hz]
      have hpa : partial_append dev seg true = some { dev with partial_buf := dev.partial_buf ++ seg } := by
        rw [partial_append, if_neg hz, if_pos rfl]
      rw [hpa]
      simp [hwf, List.append_assoc]
  | cons c rest ih =>
    intro seg n dev hwf hcap
    rw [write_loop]
    by_cases hc : c = 10
    · subst hc
      rw [if_pos rfl]
      have hcnt10 : (10 :: rest).count 10 = rest.count 10 + 1 := by
        simp
      have hk : entry_count dev.circ < 10 := by omega
      have hfull : dev.circ.full = false := by
        rcases hb : dev.circ.full with _ | _
        · rfl
        · rw [entry_count, hb, if_pos rfl] at hk
          omega
      have hpa : partial_append dev (seg ++ [10]) true =
          some { dev with partial_buf := dev.partial_buf ++ (seg ++ [10]) } := by
        rw [partial_append, if_neg (by simp), if_pos rfl]
      rw [hpa]
      dsimp only
      set d : aesd_dev := { dev with partial_buf := dev.partial_buf ++ (seg ++ [10]) } with hd
      have hdz : ¬ d.partial_buf.length = 0 := by simp [hd]
      have hfin : finalize_command d =
          { circ := aesd_circular_buffer_add_entry dev.circ (dev.partial_buf ++ (seg ++ [10])),
            partial_buf := [],
            total_size := d.total_size + d.partial_buf.length } :=
        finalize_not_full (by simpa [hd] using hfull) hdz
      rw [hfin]
      set d2 : aesd_dev :=
        { circ := aesd_circular_buffer_add_entry dev.circ (dev.partial_buf ++ (seg ++ [10])),
          partial_buf := [],
          total_size := d.total_size + d.partial_buf.length } with hd2
      have hwf2 : CircWF d2.circ := CircWF_add hwf
      have hcnt2 : entry_count d2.circ = entry_count dev.circ + 1 :=
        entry_count_add_not_full hwf.1 hwf.2.1 hfull
      have hlog2 : logContents d2.circ = logContents dev.circ ++ (dev.partial_buf ++ (seg ++ [10])) := by
        show (presentList (aesd_circular_buffer_add_entry dev.circ _)).flatten = _
        rw [presentList_add_not_full hwf hfull, List.flatten_append]
        simp [logContents]
      obtain ⟨hs, hw2, hc2, he2⟩ := ih [] (n + 1) d2 hwf2 (by omega)
      refine ⟨hs, hw2, ?_, ?_⟩
      · rw [hc2, hcnt2, hcnt10]
        omega
      · rw [he2, hlog2]
        show _ ++ ([] : List Nat) ++ ([] : List Nat) ++ rest = _
        simp [List.append_assoc]
    · rw [if_neg hc]
      have hcnt : (c :: rest).count 10 = rest.count 10 := by
        simp [List.count_cons, hc]
      obtain ⟨hs, hw2, hc2, he2⟩ := ih (seg ++ [c]) n dev hwf (by omega)
      refine ⟨hs, hw2, by omega, ?_⟩
      rw [he2]
      simp [List.append_assoc]

theorem aesd_write_ok_framing (dev : aesd_dev) (buf : List Nat)
    (hwf : CircWF dev.circ) (hcap : entry_count dev.circ + buf.count 10 ≤ 10) :
    CircWF (aesd_write (fun _ => true) true dev buf).fst.circ ∧
    entry_count (aesd_write (fun _ => true) true dev buf).fst.circ
        = entry_count dev.circ + buf.count 10 ∧
    logContents (aesd_write (fun _ => true) true dev buf).fst.circ ++
        (aesd_write (fun _ => true) true dev buf).fst.partial_buf
      = logContents dev.circ ++ dev.partial_buf ++ buf := by
  rw [aesd_write]
  split
  · next hz =>
    have : buf = [] := List.length_eq_zero.mp hz
    subst this
    simp [hwf]
  · rw [if_neg (show ¬ ((fun _ : Nat => true) 0 = false) by simp),
      if_neg (show ¬ (true = false) by simp)]
    obtain ⟨hs, hw2, hc2, he2⟩ :=
      write_loop_ok_framing buf [] 1 dev hwf (by simpa using hcap)
    rcases hw : write_loop (fun _ => true) 1 dev [] buf with ⟨d, b⟩
    rw [hw] at hs hw2 hc2 he2
    cases b
    · cases hs
    · dsimp only at hw2 hc2 he2 ⊢
      exact ⟨hw2, hc2, by simpa [List.append_assoc] using he2⟩

theorem run_writes_ok_framing (chunks : List (List Nat)) :
    ∀ dev : aesd_dev, CircWF dev.circ →
      entry_count dev.circ + chunks.flatten.count 10 ≤ 10 →
      CircWF (run_writes_ok dev chunks).circ ∧
      entry_count (run_writes_ok dev chunks).circ
          = entry_count dev.circ + chunks.flatten.count 10 ∧
      logContents (run_writes_ok dev chunks).circ ++
          (run_writes_ok dev chunks).partial_buf
        = logContents dev.circ ++ dev.partial_buf ++ chunks.flatten := by
  induction chunks with
  | nil =>
    intro dev hwf _
    refine ⟨hwf, by simp [run_writes_ok], by simp [run_writes_ok]⟩
  | cons b bs ih =>
    intro dev hwf hcap
    have hflat : (b :: bs).flatten.count 10 = b.count 10 + bs.flatten.count 10 := by
      simp [List.count_append]
    rw [run_writes_ok]
    obtain ⟨hwf1, hcnt1, heq1⟩ := aesd_write_ok_framing dev b hwf (by omega)
    obtain ⟨hwf2, hcnt2, heq2⟩ := ih _ hwf1 (by omega)
    refine ⟨hwf2, by omega, ?_⟩
    rw [heq2, heq1]
    simp [List.append_assoc]

/-! ### `aesd_write` failure: committed progress is kept, not rolled back -/

theorem partial_append_some_allok {dev : aesd_dev} {src : List Nat} {a : Bool}
    {d : aesd_dev} (h : partial_append dev src a = some d) :
    partial_append dev src true = some d := by
  unfold partial_append at h ⊢
  split at h
  · next hz => rw [if_pos hz]; exact h
  · next hz =>
    rw [if_neg hz, if_pos rfl]
    split at h
    · exact h
    · cases h

theorem write_loop_allok_index (rest : List Nat) :
    ∀ (seg : List Nat) (n m : Nat) (dev : aesd_dev),
      write_loop (fun _ => true) n dev seg rest =
        write_loop (fun _ => true) m dev seg rest := by
  induction rest with
  | nil => intro seg n m dev; rfl
  | cons c rest ih =>
    intro seg n m dev
    rw [write_loop, write_loop]
    by_cases hc : c = 10
    · subst hc
      rw [if_pos rfl, if_pos rfl]
      rcases hpa : partial_append dev (seg ++ [10]) true with _ | d
      · rfl
      · exact ih [] (n + 1) (m + 1) (finalize_command d)
    · rw [if_neg hc, if_neg hc]
      exact ih (seg ++ [c]) n m dev

theorem write_loop_fail (alloc : Nat → Bool) :
    ∀ (rest seg : List Nat) (n : Nat) (dev d' : aesd_dev),
      write_loop alloc n dev seg rest = (d', false) →
      ∃ p s, rest = p ++ s ∧ (p = [] ∨ p.getLast? = some 10) ∧
        ((p = [] ∧ d' = dev) ∨
         (¬ p = [] ∧ d' = (write_loop (fun _ => true) 0 dev seg p).fst)) := by
  intro rest
  induction rest with
  | nil =>
    intro seg n dev d' h
    rw [write_loop] at h
    split at h
    · cases h
    · rcases hpa : partial_append dev seg (alloc n) with _ | d
      · rw [hpa] at h
        refine ⟨[], [], rfl, Or.inl rfl, Or.inl ⟨rfl, ?_⟩⟩
        cases h
        rfl
      · rw [hpa] at h
        cases h
  | cons c rest ih =>
    intro seg n dev d' h
    rw [write_loop] at h
    by_cases hc : c = 10
    · subst hc
      rw [if_pos rfl] at h
      rcases hpa : partial_append dev (seg ++ [10]) (alloc n) with _ | d
      · rw [hpa] at h
        cases h
        exact ⟨[], 10 :: rest, rfl, Or.inl rfl, Or.inl ⟨rfl, rfl⟩⟩
      · rw [hpa] at h
        have hpt := partial_append_some_allok hpa
        obtain ⟨p', s', hps, hlast, hcase⟩ := ih [] (n + 1) (finalize_command d) d' h
        rcases hcase with ⟨rfl, rfl⟩ | ⟨hne, hd'⟩
        · refine ⟨[10], s', by simpa using hps, Or.inr rfl, Or.inr ⟨by simp, ?_⟩⟩
          rw [write_loop, if_pos rfl, hpt]
          rfl
        · have hlast10 : p'.getLast? = some 10 := by
            rcases hlast with h0 | h0
            · exact absurd h0 hne
            · exact h0
          refine ⟨10 :: p', s', by rw [hps]; rfl, Or.inr ?_, Or.inr ⟨by simp, ?_⟩⟩
          · rcases p' with _ | ⟨a, t⟩
            · exact absurd rfl hne
            · rw [List.getLast?_cons_cons]
              exact hlast10
          · rw [hd', write_loop, if_pos rfl, hpt]
            dsimp only
            exact congrArg Prod.fst (write_loop_allok_index p' [] 0 1 (finalize_command d))
    · rw [if_neg hc] at h
      obtain ⟨p', s', hps, hlast, hcase⟩ := ih (seg ++ [c]) n dev d' h
      rcases hcase with ⟨rfl, rfl⟩ | ⟨hne, hd'⟩
      · exact ⟨[], c :: rest, rfl, Or.inl rfl, Or.inl ⟨rfl, rfl⟩⟩
      · have hlast10 : p'.getLast? = some 10 := by
          rcases hlast with h0 | h0
          · exact absurd h0 hne
          · exact h0
        refine ⟨c :: p', s', by rw [hps]; rfl, Or.inr ?_, Or.inr ⟨by simp, ?_⟩⟩
        · rcases p' with _ | ⟨a, t⟩
          · exact absurd rfl hne
          · rw [List.getLast?_cons_cons]
            exact hlast10
        · rw [hd', write_loop, if_neg hc]

theorem aesd_write_ok_count (alloc : Nat → Bool) (copyOk : Bool) (dev : aesd_dev)
    (buf : List Nat) (m : Nat)
    (h : (aesd_write alloc copyOk dev buf).snd = .ok m) : m = buf.length := by
  rw [aesd_write] at h
  split at h
  · next hz =>
    simp only [Except.ok.injEq] at h
    omega
  · split at h
    · simp at h
    · split at h
      · simp at h
      · rcases hw : write_loop alloc 1 dev [] buf with ⟨d, b⟩
        rw [hw] at h
        cases b
        · simp at h
        · simp only [Except.ok.injEq] at h
          omega

theorem aesd_write_enomem_prefix (alloc : Nat → Bool) (copyOk : Bool)
    (dev : aesd_dev) (buf : List Nat)
    (h : (aesd_write alloc copyOk dev buf).snd = .error .ENOMEM) :
    ∃ p s, buf = p ++ s ∧ (p = [] ∨ p.getLast? = some 10) ∧
      (aesd_write alloc copyOk dev buf).fst =
        (aesd_write (fun _ => true) true dev p).fst := by
  by_cases hz : buf.length = 0
  · rw [aesd_write, if_pos hz] at h
    simp at h
  · by_cases ha : alloc 0 = false
    · refine ⟨[], buf, by simp, Or.inl rfl, ?_⟩
      rw [aesd_write, if_neg hz, if_pos ha]
      rfl
    · by_cases hcp : copyOk = false
      · rw [aesd_write, if_neg hz, if_neg ha, if_pos hcp] at h
        simp at h
      · rw [aesd_write, if_neg hz, if_neg ha, if_neg hcp] at h
        rcases hw : write_loop alloc 1 dev [] buf with ⟨d, b⟩
        rw [hw] at h
        cases b
        · obtain ⟨p, s, hps, hlast, hcase⟩ := write_loop_fail alloc buf [] 1 dev d hw
          have hfst : (aesd_write alloc copyOk dev buf).fst = d := by
            rw [aesd_write, if_neg hz, if_neg ha, if_neg hcp, hw]
          rcases hcase with ⟨rfl, rfl⟩ | ⟨hne, hd⟩
          · exact ⟨[], buf, by simp, Or.inl rfl, by rw [hfst]; rfl⟩
          · refine ⟨p, s, hps, hlast, ?_⟩
            have hplen : ¬ p.length = 0 := fun h0 => hne (List.length_eq_zero.mp h0)
            rw [hfst, aesd_write, if_neg hplen,
              if_neg (show ¬ ((fun _ : Nat => true) 0 = false) by simp),
              if_neg (show ¬ (true = false) by simp)]
            rcases hwp : write_loop (fun _ => true) 1 dev [] p with ⟨d2, b2⟩
            have hwp0 : write_loop (fun _ => true) 0 dev [] p = (d2, b2) := by
              rw [write_loop_allok_index p [] 0 1 dev, hwp]
            rw [hd, hwp0]
            cases b2 <;> rfl
        · simp at h

/-! ### The read path: bytes come from the committed log in FIFO order -/

theorem total_eq_log_length {dev : aesd_dev} (hInv : DevInv dev) :
    dev.total_size = (logContents dev.circ).length := by
  rw [hInv.2, length_logContents]

theorem read_loop_spec (copyOk : Nat → Bool) (dev : aesd_dev) (count : Nat)
    (hInv : DevInv dev) (fpos0 : Nat) :
    ∀ (fuel chunk : Nat) (copied : List Nat),
      count ≤ copied.length + fuel →
      copied.length ≤ count →
      copied = ((logContents dev.circ).drop fpos0).take copied.length →
      fpos0 + copied.length ≤ dev.total_size →
      ∀ c' f' ok,
        read_loop copyOk dev count fuel chunk copied (fpos0 + copied.length)
          = (c', f', ok) →
        c'.length ≤ count ∧
        c' = ((logContents dev.circ).drop fpos0).take c'.length ∧
        f' = fpos0 + c'.length ∧
        fpos0 + c'.length ≤ dev.total_size ∧
        copied.length ≤ c'.length ∧
        ((∀ i, copyOk i = true) →
          c'.length = min count (dev.total_size - fpos0)) ∧
        ((∀ i, copyOk i = true) → ok = true) := by
  intro fuel
  induction fuel with
  | zero =>
    intro chunk copied hfuel hle hpre hpos c' f' ok hcall
    rw [read_loop] at hcall
    cases hcall
    refine ⟨hle, hpre, rfl, hpos, le_refl _, fun _ => ?_, fun _ => rfl⟩
    omega
  | succ fuel ih =>
    intro chunk copied hfuel hle hpre hpos c' f' ok hcall
    rw [read_loop] at hcall
    split at hcall
    · next hcond =>
      rcases hf : aesd_circular_buffer_find_entry_offset_for_fpos dev.circ
          (fpos0 + copied.length) with _ | ⟨e, off⟩
      · exfalso
        have hlen := findAux_none_le hf
        have := total_eq_log_length hInv
        rw [logContents] at this
        omega
      · rw [hf] at hcall
        dsimp only at hcall
        have hofflt : off < e.length := findAux_some_lt hf
        have hdrop := findAux_drop hf
        set avail := min (e.length - off) (count - copied.length) with havail
        have hav1 : 1 ≤ avail := by omega
        have havle : avail ≤ e.length - off := by omega
        by_cases hcp : copyOk chunk = true
        · rw [if_pos hcp] at hcall
          have htk : ((e.drop off).take avail).length = avail := by
            rw [List.length_take, List.length_drop]
            omega
          have hlen' : (copied ++ (e.drop off).take avail).length
              = copied.length + avail := by
            rw [List.length_append, htk]
          have hstep : ((logContents dev.circ).drop (fpos0 + copied.length)).take avail
              = (e.drop off).take avail := findAux_take hf havle
          have hpre' : copied ++ (e.drop off).take avail
              = ((logContents dev.circ).drop fpos0).take (copied.length + avail) := by
            rw [List.take_add, ← hpre, List.drop_drop, hstep]
          have hpos' : fpos0 + (copied.length + avail) ≤ dev.total_size := by
            have h2 := hdrop.2
            have := total_eq_log_length hInv
            rw [logContents] at this
            omega
          have hcall' : read_loop copyOk dev count fuel (chunk + 1)
              (copied ++ (e.drop off).take avail)
              (fpos0 + (copied ++ (e.drop off).take avail).length)
                = (c', f', ok) := by
            rw [hlen']
            have harg2 : fpos0 + (copied.length + avail)
                = fpos0 + copied.length + avail := by omega
            rw [harg2]
            exact hcall
          obtain ⟨h1, h2, h3, h4, h5, h6, h7⟩ := ih (chunk + 1)
            (copied ++ (e.drop off).take avail)
            (by omega)
            (by omega)
            (by rw [hlen']; exact hpre')
            (by rw [hlen']; exact hpos')
            c' f' ok hcall'
          rw [hlen'] at h5
          exact ⟨h1, h2, h3, h4, by omega, h6, h7⟩
        · rw [if_neg hcp] at hcall
          cases hcall
          refine ⟨hle, hpre, rfl, hpos, le_refl _, fun hall => ?_,
            fun hall => absurd (hall chunk) (by simpa using hcp)⟩
          exact absurd (hall chunk) (by simpa using hcp)
    · next hcond =>
      cases hcall
      refine ⟨hle, hpre, rfl, hpos, le_refl _, fun _ => ?_, fun _ => rfl⟩
      by_cases hx : copied.length < count
      · have hy : ¬ fpos0 + copied.length < dev.total_size :=
          fun hb => hcond ⟨hx, hb⟩
        omega
      · omega

/-- Claim C5's contract for one `aesd_read` call: EOF at or past `total_size`;
delivered bytes are the next bytes of the committed log in FIFO order, with
the position advanced by exactly the byte count; a fault with nothing
delivered leaves the position alone; with no fault the read delivers
`min count (total_size − fpos)` bytes. -/
def ReadSpec (copyOk : Nat → Bool) (dev : aesd_dev) (count fpos : Nat) : Prop :=
  (dev.total_size ≤ fpos → aesd_read copyOk dev count fpos = (.ok [], fpos)) ∧
  (∀ bytes f', aesd_read copyOk dev count fpos = (.ok bytes, f') →
    bytes.length ≤ count ∧
    bytes = ((logContents dev.circ).drop fpos).take bytes.length ∧
    f' = fpos + bytes.length) ∧
  (∀ f', aesd_read copyOk dev count fpos = (.error (), f') → f' = fpos) ∧
  ((∀ i, copyOk i = true) →
    aesd_read copyOk dev count fpos =
      (.ok (((logContents dev.circ).drop fpos).take (min count (dev.total_size - fpos))),
       fpos + min count (dev.total_size - fpos)))

theorem read_spec_of_inv (copyOk : Nat → Bool) (dev : aesd_dev)
    (count fpos : Nat) (hInv : DevInv dev) : ReadSpec copyOk dev count fpos := by
  by_cases hc0 : count = 0
  · subst hc0
    refine ⟨fun _ => by rw [aesd_read, if_pos rfl], ?_, ?_, ?_⟩
    · intro bytes f' h
      rw [aesd_read, if_pos rfl] at h
      cases h
      exact ⟨by simp, by simp, by simp⟩
    · intro f' h
      rw [aesd_read, if_pos rfl] at h
      cases h
    · intro _
      rw [aesd_read, if_pos rfl]
      simp
  · by_cases hpos : dev.total_size ≤ fpos
    · have heq : aesd_read copyOk dev count fpos = (.ok [], fpos) := by
        rw [aesd_read, if_neg hc0, read_from_ring, if_pos hpos]
      refine ⟨fun _ => heq, ?_, ?_, ?_⟩
      · intro bytes f' h
        rw [heq] at h
        cases h
        exact ⟨by simp, by simp, by simp⟩
      · intro f' h
        rw [heq] at h
        cases h
      · intro _
        rw [heq]
        have hm : min count (dev.total_size - fpos) = 0 := by omega
        rw [hm]
        simp
    · push_neg at hpos
      rcases hl : read_loop copyOk dev count count 0 [] fpos with ⟨copied, f2, ok⟩
      have hl' : read_loop copyOk dev count count 0 []
          (fpos + ([] : List Nat).length) = (copied, f2, ok) := by
        simpa using hl
      obtain ⟨h1, h2, h3, h4, _, h6, h7⟩ :=
        read_loop_spec copyOk dev count hInv fpos count 0 []
          (by simp) (by simp) (by simp) (by simpa using Nat.le_of_lt hpos)
          copied f2 ok hl'
      cases ok
      · have heq : aesd_read copyOk dev count fpos =
            (if copied.length = 0 then (Except.error (), f2)
             else (Except.ok copied, f2)) := by
          rw [aesd_read, if_neg hc0, read_from_ring, if_neg (by omega), hl]
        by_cases hz : copied.length = 0
        · rw [if_pos hz] at heq
          refine ⟨fun hx => absurd hx (by omega), ?_, ?_, ?_⟩
          · intro bytes f' h
            rw [heq] at h
            cases h
          · intro f' h
            rw [heq] at h
            cases h
            omega
          · intro hall
            cases h7 hall
        · rw [if_neg hz] at heq
          refine ⟨fun hx => absurd hx (by omega), ?_, ?_, ?_⟩
          · intro bytes f' h
            rw [heq] at h
            cases h
            exact ⟨h1, h2, h3⟩
          · intro f' h
            rw [heq] at h
            cases h
          · intro hall
            cases h7 hall
      · have heq : aesd_read copyOk dev count fpos = (Except.ok copied, f2) := by
          rw [aesd_read, if_neg hc0, read_from_ring, if_neg (by omega), hl]
        refine ⟨fun hx => absurd hx (by omega), ?_, ?_, ?_⟩
        · intro bytes f' h
          rw [heq] at h
          cases h
          exact ⟨h1, h2, h3⟩
        · intro f' h
          rw [heq] at h
          cases h
        · intro hall
          rw [heq, h2, h6 hall, h3, h6 hall]

/-! ### The server reply paths -/

theorem aesd_read_allok {dev : aesd_dev} (hInv : DevInv dev) (count fpos : Nat) :
    aesd_read (fun _ => true) dev count fpos
      = (.ok (((logContents dev.circ).drop fpos).take (min count (dev.total_size - fpos))),
         fpos + min count (dev.total_size - fpos)) :=
  (read_spec_of_inv (fun _ => true) dev count fpos hInv).2.2.2 (fun _ => rfl)

/-- When the whole remaining log fits in one `SEND_CHUNK`, the device-mode
reply loop streams exactly the log from the current position and leaves the
position at the end of the log. -/
theorem device_reply_loop_small {dev : aesd_dev} (hInv : DevInv dev)
    (fpos fuel : Nat) (hle : fpos ≤ dev.total_size)
    (hrem : dev.total_size - fpos ≤ 4096) (hfuel : 2 ≤ fuel) :
    device_reply_loop dev fuel fpos
      = ((logContents dev.circ).drop fpos, dev.total_size) := by
  obtain ⟨k, rfl⟩ : ∃ k, fuel = k + 2 := ⟨fuel - 2, by omega⟩
  have hloglen : (logContents dev.circ).length = dev.total_size :=
    (total_eq_log_length hInv).symm
  rw [show k + 2 = (k + 1) + 1 by omega, device_reply_loop, aesd_read_allok hInv]
  have hmin : min 4096 (dev.total_size - fpos) = dev.total_size - fpos := by omega
  rw [hmin]
  have htake : ((logContents dev.circ).drop fpos).take (dev.total_size - fpos)
      = (logContents dev.circ).drop fpos := by
    apply List.take_of_length_le
    rw [List.length_drop]
    omega
  rw [htake]
  by_cases hz : dev.total_size - fpos = 0
  · have hfp : fpos = dev.total_size := by omega
    have hnil : (logContents dev.circ).drop fpos = [] := by
      apply List.drop_eq_nil_of_le
      omega
    rw [hnil, hfp]
  · rcases hbytes : (logContents dev.circ).drop fpos with _ | ⟨b0, brest⟩
    · exfalso
      have := congrArg List.length hbytes
      rw [List.length_drop] at this
      simp at this
      omega
    · have hend : fpos + (dev.total_size - fpos) = dev.total_size := by omega
      by_cases hnl : (b0 :: brest).contains 10
      · simp only [hnl, if_true, hend]
      · simp only [hnl, Bool.false_eq_true, if_false]
        have hinner : device_reply_loop dev (k + 1)
            (fpos + (dev.total_size - fpos)) = ([], dev.total_size) := by
          rw [hend, device_reply_loop, aesd_read_allok hInv]
          simp
        rw [hend] at hinner ⊢
        rw [hinner]
        simp

theorem send_chunks_eq : ∀ (fuel : Nat) (rem : List Nat), rem.length < fuel →
    send_chunks fuel rem = rem := by
  intro fuel
  induction fuel with
  | zero => intro rem h; omega
  | succ fuel ih =>
    intro rem h
    rw [send_chunks]
    by_cases hz : (rem.take 4096).length = 0
    · rw [if_pos hz]
      have h0 : rem.length = 0 := by
        rw [List.length_take] at hz
        omega
      rw [List.length_eq_zero.mp h0]
    · rw [if_neg hz]
      have h1 : 1 ≤ rem.length := by
        rw [List.length_take] at hz
        omega
      rcases Nat.le_total rem.length 4096 with hsm | hlg
      · rw [List.take_of_length_le hsm, List.drop_eq_nil_of_le hsm,
          ih [] (by simp; omega)]
        simp
      · rw [ih (rem.drop 4096) (by rw [List.length_drop]; omega)]
        exact List.take_append_drop 4096 rem

/-- `send_file_contents_locked` streams the file unchanged. -/
theorem send_file_contents_locked_eq (file : List Nat) :
    send_file_contents_locked file = file :=
  send_chunks_eq (file.length + 1) file (by omega)

theorem handle_packet_file_eq (file pkt : List Nat) :
    handle_packet_file file pkt = (file ++ pkt, file ++ pkt) := by
  rw [handle_packet_file, append_to_file_locked, send_file_contents_locked_eq]

/-- The outer receive phase: bytes before the first newline are only
buffered; the first newline hands the buffered line (not reset) and the
remaining bytes to the nested loop, with the device file position at 0. -/
theorem device_connection_first_newline :
    ∀ (p1 lineBuf rest : List Nat) (dev : aesd_dev), p1.count 10 = 0 →
      device_connection_run lineBuf (p1 ++ (10 :: rest)) dev
        = device_inner_loop dev 0 (lineBuf ++ p1 ++ [10]) rest := by
  intro p1
  induction p1 with
  | nil =>
    intro lineBuf rest dev _
    rw [List.nil_append, device_connection_run, if_pos rfl]
    simp
  | cons c p1 ih =>
    intro lineBuf rest dev h
    simp only [List.count_cons] at h
    have hc : ¬ c = 10 := by
      intro hceq
      subst hceq
      simp at h
    have hp : p1.count 10 = 0 := by
      rcases Nat.add_eq_zero.mp h with ⟨h1, _⟩
      exact h1
    rw [List.cons_append, device_connection_run, if_neg hc, ih (lineBuf ++ [c]) rest dev hp]
    simp [List.append_assoc]

/-- Inside the nested loop, newline-free bytes only extend the line buffer;
the next newline runs the per-line body on the whole buffered line and the
loop continues with an empty buffer. -/
theorem device_inner_loop_line :
    ∀ (p2 lineBuf rest : List Nat) (dev : aesd_dev) (fpos : Nat), p2.count 10 = 0 →
      device_inner_loop dev fpos lineBuf (p2 ++ (10 :: rest))
        = (let h := handle_line_device dev fpos (lineBuf ++ p2 ++ [10])
           let k := device_inner_loop h.fst h.snd.fst [] rest
           (k.fst, k.snd.fst, h.snd.snd :: k.snd.snd)) := by
  intro p2
  induction p2 with
  | nil =>
    intro lineBuf rest dev fpos _
    rw [List.nil_append, device_inner_loop, if_pos rfl]
    simp
  | cons c p2 ih =>
    intro lineBuf rest dev fpos h
    simp only [List.count_cons] at h
    have hc : ¬ c = 10 := by
      intro hceq
      subst hceq
      simp at h
    have hp : p2.count 10 = 0 := by
      rcases Nat.add_eq_zero.mp h with ⟨h1, _⟩
      exact h1
    rw [List.cons_append, device_inner_loop, if_neg hc, ih (lineBuf ++ [c]) rest dev fpos hp]
    simp [List.append_assoc]

/-! ### Claims -/

/-- C1, counterexample: write a byte sequence of 11 one-byte commands
("a\n" eleven times, 22 bytes, one write call, all allocations succeeding)
to an initially empty device.  The ring evicts the oldest command on the 11th
commit, so concatenating the committed entries in FIFO order plus the pending
partial buffer yields only the last 10 commands — not the written sequence.
The claim as stated is therefore false. -/
theorem c1_counterexample :
    logContents (run_writes_ok init_dev
          [List.flatten (List.replicate 11 [97, 10])]).circ ++
        (run_writes_ok init_dev
          [List.flatten (List.replicate 11 [97, 10])]).partial_buf
      ≠ List.flatten (List.replicate 11 [97, 10]) := by
  decide

/-- C1, amended: for any byte sequence written to an initially empty device
via any chunking into write calls (all allocations and copies succeeding),
**provided the sequence completes at most CAPACITY = 10 commands** (so no
eviction occurs), concatenating all committed entries in FIFO order followed
by the pending partial buffer yields exactly the written sequence. -/
theorem c1_framing_roundtrip (chunks : List (List Nat))
    (hcap : chunks.flatten.count 10 ≤ 10) :
    logContents (run_writes_ok init_dev chunks).circ ++
        (run_writes_ok init_dev chunks).partial_buf
      = chunks.flatten := by
  obtain ⟨_, _, heq⟩ := run_writes_ok_framing chunks init_dev DevInv_init.1
    (by rw [show entry_count init_dev.circ = 0 from rfl]; omega)
  rw [heq, show logContents init_dev.circ = [] from rfl,
    show init_dev.partial_buf = [] from rfl]
  simp

/-- C1, witness: writing "hi\n" then "w" ++ "\n" as two calls (2 commands,
within capacity) round-trips. -/
theorem c1_witness :
    ([[104, 105, 10], [119, 10]] : List (List Nat)).flatten.count 10 ≤ 10 ∧
    logContents (run_writes_ok init_dev [[104, 105, 10], [119, 10]]).circ ++
        (run_writes_ok init_dev [[104, 105, 10], [119, 10]]).partial_buf
      = ([[104, 105, 10], [119, 10]] : List (List Nat)).flatten :=
  ⟨by decide, c1_framing_roundtrip [[104, 105, 10], [119, 10]] (by decide)⟩

/-- C2: the claim describes the `AESDCHAR_IOCSEEKTO` ioctl validating
`(X, Y)` against the present entries and setting the file position.  The
driver's `file_operations` initializer registers **no** `unlocked_ioctl`
handler at all (main.c lines 230–236), so every SEEKTO ioctl call on the
device fails with `ENOTTY` — the validation and position update the claim
(and the server's device-mode sink, aesdsocket.c lines 343–350) rely on never
run.  This theorem evaluates the registered operations at that point. -/
theorem c2_no_seekto_ioctl_handler :
    aesd_fops.unlocked_ioctl = none ∧ aesd_fops.fop_write = some aesd_write := by
  exact ⟨rfl, rfl⟩

/-- C3: the claim describes `llseek` computing SEEK_SET/CUR/END positions
from `total_size`.  The driver's `file_operations` initializer registers
**no** `llseek` handler (main.c lines 230–236): the device does not implement
llseek, and `total_size` is never consulted for seeking; the kernel default
applies instead.  This theorem evaluates the registered operations at that
point. -/
theorem c3_no_llseek_handler :
    aesd_fops.llseek = none ∧ aesd_fops.fop_read = some aesd_read := by
  exact ⟨rfl, rfl⟩

/-- C4, counterexample: run a device-mode connection from its start on the
packets "a\n", "b\n", "c\n".  The first packet gets no reply of its own
(the first newline only opens the device; the line buffer is not reset), the
first actual reply is the merged line's "a\nb\n", and the reply sent after
packet "c\n" is only "c\n" — not the entire current log "a\nb\nc\n".
The claim (every accepted packet is answered with the entire current log) is
therefore false. -/
theorem c4_counterexample :
    (device_connection_run [] [97, 10, 98, 10, 99, 10] init_dev).snd.snd
        = [[97, 10, 98, 10], [99, 10]] ∧
    [99, 10] ≠
      logContents (device_connection_run [] [97, 10, 98, 10, 99, 10]
        init_dev).fst.circ := by
  constructor
  · decide
  · decide

/-- C4, amended: in file-mode the reply to each packet is the entire updated
log.  In device-mode: a connection that completes only one packet gets no
reply at all (and nothing is written); the first newline merely opens the
device, so the first reply answers the first packet merged with the line
completed by the second newline, streaming from device file position 0; each
reply streams the log from the connection's current device file position,
which then moves to the end of the log (stated for replies that fit one
`SEND_CHUNK` = 4096 block; a seek command does not move the position since
the driver registers no ioctl handler). -/
theorem c4_reply_amended :
    (∀ file pkt : List Nat, (handle_packet_file file pkt).snd = file ++ pkt) ∧
    (∀ (p1 : List Nat) (dev : aesd_dev), p1.count 10 = 0 →
      device_connection_run [] (p1 ++ [10]) dev = (dev, 0, [])) ∧
    (∀ (p1 p2 rest : List Nat) (dev : aesd_dev),
      p1.count 10 = 0 → p2.count 10 = 0 →
      device_connection_run [] (p1 ++ (10 :: (p2 ++ (10 :: rest)))) dev
        = (let h := handle_line_device dev 0 ((p1 ++ [10]) ++ (p2 ++ [10]))
           let k := device_inner_loop h.fst h.snd.fst [] rest
           (k.fst, k.snd.fst, h.snd.snd :: k.snd.snd))) ∧
    (∀ (dev : aesd_dev) (fpos fuel : Nat), DevInv dev →
      fpos ≤ dev.total_size → dev.total_size - fpos ≤ 4096 → 2 ≤ fuel →
      device_reply_loop dev fuel fpos
        = ((logContents dev.circ).drop fpos, dev.total_size)) := by
  refine ⟨fun file pkt => by rw [handle_packet_file_eq], ?_, ?_,
    fun dev fpos fuel hInv h1 h2 h3 =>
      device_reply_loop_small hInv fpos fuel h1 h2 h3⟩
  · intro p1 dev h
    rw [show p1 ++ [10] = p1 ++ (10 :: []) from rfl,
      device_connection_first_newline p1 [] [] dev h]
    rw [device_inner_loop]
  · intro p1 p2 rest dev h1 h2
    rw [device_connection_first_newline p1 [] (p2 ++ (10 :: rest)) dev h1,
      List.nil_append, device_inner_loop_line p2 (p1 ++ [10]) rest dev 0 h2]
    simp [List.append_assoc]

/-- C4, witness: the connection "a\n" then "b\n" produces exactly one
reply, for the merged line "a\nb\n" handled from position 0. -/
theorem c4_witness :
    device_connection_run [] ([97] ++ (10 :: ([98] ++ (10 :: ([] : List Nat)))))
        init_dev
      = (let h := handle_line_device init_dev 0 (([97] ++ [10]) ++ ([98] ++ [10]))
         let k := device_inner_loop h.fst h.snd.fst [] []
         (k.fst, k.snd.fst, h.snd.snd :: k.snd.snd)) :=
  c4_reply_amended.2.2.1 [97] [98] [] init_dev (by decide) (by decide)

/-- C5: for every device read: positions at or past `total_size` return 0
bytes; otherwise up to `count` bytes are copied starting at the absolute
position across entries in FIFO order, the position advances by the number of
bytes copied and that count is returned; a copy-out failure returns the bytes
already delivered, or a fault error (position unchanged) if none were
delivered.  (`DevInv` holds for every state reachable by writes,
see `DevInv_run_writes`.) -/
theorem c5_read_spec (copyOk : Nat → Bool) (dev : aesd_dev) (count fpos : Nat)
    (hInv : DevInv dev) : ReadSpec copyOk dev count fpos :=
  read_spec_of_inv copyOk dev count fpos hInv

/-- C5, witness: the spec instantiated after writing "hi\n", reading 2 bytes
from position 1. -/
theorem c5_witness :
    ReadSpec (fun _ => true)
      (aesd_write (fun _ => true) true init_dev [104, 105, 10]).fst 2 1 :=
  c5_read_spec (fun _ => true)
    (aesd_write (fun _ => true) true init_dev [104, 105, 10]).fst 2 1
    ⟨⟨by decide, by decide, by decide⟩, by decide⟩

/-- C6: after any sequence of device writes (arbitrary allocation and copy
outcomes, including commits into a full ring that evict the oldest entry),
the ring holds at most CAPACITY = 10 present entries and `total_size` equals
the sum of the present entries' sizes. -/
theorem c6_ring_capacity_invariant (ws : List ((Nat → Bool) × Bool × List Nat)) :
    (presentList (run_writes init_dev ws).circ).length ≤ 10 ∧
    (run_writes init_dev ws).total_size
      = sumSizes (presentList (run_writes init_dev ws).circ) := by
  have h := DevInv_run_writes ws init_dev DevInv_init
  refine ⟨?_, h.2⟩
  rw [presentList_length]
  exact entry_count_le _

/-- C7: every successful write reports all `buf.length` bytes consumed; an
allocation failure fails the call with `ENOMEM`, and the resulting device
state is exactly the state reached by successfully writing the prefix of the
input up to the last completed command boundary — every command committed
earlier in the call stays committed, and nothing is rolled back. -/
theorem c7_write_consume_or_enomem (alloc : Nat → Bool) (copyOk : Bool)
    (dev : aesd_dev) (buf : List Nat) :
    (∀ m, (aesd_write alloc copyOk dev buf).snd = .ok m → m = buf.length) ∧
    ((aesd_write alloc copyOk dev buf).snd = .error .ENOMEM →
      ∃ p s, buf = p ++ s ∧ (p = [] ∨ p.getLast? = some 10) ∧
        (aesd_write alloc copyOk dev buf).fst =
          (aesd_write (fun _ => true) true dev p).fst) :=
  ⟨fun m h => aesd_write_ok_count alloc copyOk dev buf m h,
   fun h => aesd_write_enomem_prefix alloc copyOk dev buf h⟩

/-- C7, witness: writing "a\nb\n" with the third kmalloc failing commits
"a\n" and aborts with `ENOMEM`; the final state is that of a successful write
of the boundary prefix. -/
theorem c7_witness :
    ∃ p s, ([97, 10, 98, 10] : List Nat) = p ++ s ∧
      (p = [] ∨ p.getLast? = some 10) ∧
      (aesd_write (fun n => decide (n < 2)) true init_dev [97, 10, 98, 10]).fst =
        (aesd_write (fun _ => true) true init_dev p).fst :=
  (c7_write_consume_or_enomem (fun n => decide (n < 2)) true init_dev
    [97, 10, 98, 10]).2 rfl

/-- C8, counterexample: run a device-mode connection from its start on the
packets "a\n", "b\n", "c\n".  The replies sent are "a\nb\n" (for the
merged first line) and then "c\n"; the earlier reply is not a prefix of the
later one.  The claim as stated (covering device-mode) is therefore false. -/
theorem c8_counterexample :
    (device_connection_run [] [97, 10, 98, 10, 99, 10] init_dev).snd.snd
        = [[97, 10, 98, 10], [99, 10]] ∧
    ¬ (([97, 10, 98, 10] : List Nat) <+: [99, 10]) := by
  constructor
  · decide
  · decide

/-- C8, amended: in file-mode the property holds, and even with arbitrary
bytes `mid` (timestamp lines, other clients' packets) appended between the
two packets: the reply to P1 is a prefix of the reply to P2.  In device-mode
it fails (see the counterexample): a connection's first packet gets no reply
of its own, the first reply covers the merged first line from position 0,
and each later reply streams only from the device file position where the
previous reply stopped, so an earlier reply need not be a prefix of a later
one. -/
theorem c8_replay_monotonic_file_mode (file0 mid p1 p2 : List Nat) :
    (handle_packet_file file0 p1).snd <+:
      (handle_packet_file ((handle_packet_file file0 p1).fst ++ mid) p2).snd := by
  simp only [handle_packet_file_eq]
  rw [List.append_assoc]
  exact (file0 ++ p1).prefix_append (mid ++ p2)

/-- C9: the claim says an allocation failure discards all buffered bytes up
to the **next newline** and the next committed packet begins after that
newline.  The code only discards the bytes buffered so far and drops the one
current byte; accumulation restarts at the very next byte.  Evaluating the
assembler at the failing input: empty buffer, allocation fails on byte 'c',
succeeds afterwards; the stream "cd\n" emits the fragment packet "d\n" —
a packet beginning right after the failed byte and ending at that newline,
not a packet beginning after the newline. -/
theorem c9_no_frame_resync :
    assemble_run { buf := [], cap := 0 }
        [(99, false), (100, true), (10, true)]
      = ({ buf := [], cap := 1024 }, [[100, 10]]) := rfl

/-- C10: if copying the user buffer into the kernel fails, `aesd_write`
returns a fault error and the device state (ring, pending partial buffer and
`total_size`) is exactly as before the call: the bounce-buffer copy happens
before any mutation of device state. -/
theorem c10_copy_fault_no_mutation (alloc : Nat → Bool) (dev : aesd_dev)
    (buf : List Nat) (hne : buf ≠ []) (ha : alloc 0 = true) :
    aesd_write alloc false dev buf = (dev, .error .EFAULT) := by
  rw [aesd_write, if_neg (by simpa using hne), if_neg (by rw [ha]; simp),
    if_pos rfl]

/-- C10, witness: a one-byte write whose `copy_from_user` fails faults and
leaves the fresh device untouched. -/
theorem c10_witness :
    aesd_write (fun _ => true) false init_dev [97]
      = (init_dev, .error .EFAULT) :=
  c10_copy_fault_no_mutation (fun _ => true) init_dev [97] (by decide) rfl
